import Mathlib

/-!
Shallow embedding of the speedscope trace-analysis scripts
(`analyze_speedscope.py`, both the call-tree variant under
`.github/agents/tools/` and the ranked-report variant under
`profiling-results/`).  Timestamps and durations are modelled as
rationals; Python dicts (which preserve insertion order) are modelled as
association lists where a fresh key is appended at the end and an
existing key is updated in place.
-/

/-- Event kind: `'O'` (open) or `'C'` (close) markers of the speedscope
event stream. -/
inductive EvKind where
  | O
  | C
deriving DecidableEq, Repr

/-- One speedscope event: `{type, frame, at}`. -/
structure Event where
  kind : EvKind
  frame : ℕ
  ts : ℚ
deriving DecidableEq, Repr

/-- Prefix test on character lists: does the first list occur at the head
of the second? -/
def listPre : List Char → List Char → Bool
  | [], _ => true
  | _ :: _, [] => false
  | c :: cs, d :: ds => c = d && listPre cs ds

/-- Substring test on character lists (Python `sub in text`). -/
def listSub (sub : List Char) : List Char → Bool
  | [] => listPre sub []
  | c :: rest => listPre sub (c :: rest) || listSub sub rest

/-- Python's `sub in hay` on strings. -/
def strIn (sub hay : String) : Bool := listSub sub.data hay.data

/-- The exact skip-pattern list of `should_skip_method` in the call-tree
variant. -/
def skipPatterns : List String :=
  [ "UNMANAGED_CODE_TIME"
  , "GlobalSetup"
  , "GlobalCleanup"
  , "IterationSetup"
  , "IterationCleanup"
  , "BenchmarkDotNet."
  , "Perfolizer."
  , "..cctor()"
  , ".cctor()"
  , ".Initialize()"
  , "BeforeAnythingElse"
  , "AfterAll"
  , "BeforeActualRun"
  , "AfterActualRun"
  , "OverheadJitting"
  , "WorkloadJitting"
  , "OverheadWarmup"
  , "OverheadActual"
  , "WorkloadWarmup" ]

/-- `should_skip_method`: any pattern occurring as a substring of the
method name. -/
def shouldSkip (methodName : String) : Bool :=
  skipPatterns.any (fun p => strIn p methodName)

/-- Frame table: frame id to display name, in insertion order. -/
abbrev Names := List (ℕ × String)

/-- Association-list lookup (Python dict indexing / `in` test). -/
def lookupA {α : Type} (l : List (ℕ × α)) (k : ℕ) : Option α :=
  (l.find? (fun p => p.1 == k)).map Prod.snd

/-- Characters after the first `'!'` (Python `name.split('!', 1)[1]`). -/
def dropToBang : List Char → List Char
  | [] => []
  | c :: cs => if c = '!' then cs else dropToBang cs

/-- `get_method_name` of the call-tree variant: the part after `'!'` when
present, the whole name otherwise, and a placeholder for unknown ids. -/
def getMethodName (frameIdx : ℕ) (names : Names) : String :=
  match lookupA names frameIdx with
  | none => "<frame " ++ toString frameIdx ++ ">"
  | some name => if strIn "!" name then ⟨dropToBang name.data⟩ else name

/-- The set of frame ids present in the frame table. -/
def namesKeys (names : Names) : Finset ℕ :=
  (names.map Prod.fst).toFinset

/-- Per-parent child map: child frame id to accumulated edge duration,
in insertion order. -/
abbrev ChildList := List (ℕ × ℚ)

/-- One node of the aggregate built by `build_call_tree` (call-tree
variant): accumulated inclusive time plus the child edge map. -/
structure Node where
  time : ℚ
  children : ChildList
deriving DecidableEq, Repr

/-- The aggregate of `build_call_tree`: frame id to node, in insertion
order. -/
abbrev CallTree := List (ℕ × Node)

/-- `tree[parent]['children'][child] += d` on the child map alone. -/
def addChild (cs : ChildList) (c : ℕ) (d : ℚ) : ChildList :=
  match cs with
  | [] => [(c, d)]
  | (c', v) :: rest =>
    if c' = c then (c', v + d) :: rest else (c', v) :: addChild rest c d

/-- `tree[k]['time'] += d`, creating the node on first access as the
defaultdict does. -/
def updTime (t : CallTree) (k : ℕ) (d : ℚ) : CallTree :=
  match t with
  | [] => [(k, ⟨d, []⟩)]
  | (k', nd) :: rest =>
    if k' = k then (k', ⟨nd.time + d, nd.children⟩) :: rest
    else (k', nd) :: updTime rest k d

/-- `tree[p]['children'][c] += d`, creating the parent node on first
access as the defaultdict does. -/
def updEdge (t : CallTree) (p c : ℕ) (d : ℚ) : CallTree :=
  match t with
  | [] => [(p, ⟨0, [(c, d)]⟩)]
  | (k', nd) :: rest =>
    if k' = p then (k', ⟨nd.time, addChild nd.children c d⟩) :: rest
    else (k', nd) :: updEdge rest p c d

/-- One step of `build_call_tree` (call-tree variant): state is the
aggregate plus the open-frame stack (head is the stack top). -/
def stepBCT (s : CallTree × List (ℕ × ℚ)) (e : Event) : CallTree × List (ℕ × ℚ) :=
  match e.kind with
  | .O => (s.1, (e.frame, e.ts) :: s.2)
  | .C =>
    match s.2 with
    | [] => s
    | (g, t0) :: st =>
      if g = e.frame then
        let d := e.ts - t0
        let t1 := updTime s.1 e.frame d
        let t2 := match st with
          | [] => t1
          | (p, _) :: _ => updEdge t1 p e.frame d
        (t2, st)
      else (s.1, st)

/-- `build_call_tree` of the call-tree variant: fold the events from an
empty aggregate and an empty stack and return the aggregate. -/
def buildCallTree (events : List Event) : CallTree :=
  (events.foldl stepBCT ([], [])).1

/-- State of the reducer inside `analyze_speedscope` (ranked-report
variant): exclusive times, inclusive sample counts, and the open-frame
stack (head is the stack top). -/
structure AState where
  frameTimes : List (ℕ × ℚ)
  frameSamples : List (ℕ × ℕ)
  stack : List (ℕ × ℚ)
deriving DecidableEq, Repr

/-- `m[k] += d` on a defaultdict/Counter modelled as an association
list: a fresh key is appended with value `d`. -/
def updAdd {α : Type} [Add α] (l : List (ℕ × α)) (k : ℕ) (d : α) :
    List (ℕ × α) :=
  match l with
  | [] => [(k, d)]
  | (k', v) :: rest =>
    if k' = k then (k', v + d) :: rest else (k', v) :: updAdd rest k d

/-- One step of the event loop of `analyze_speedscope`: Open pushes and
counts a sample; Close pops (when the stack is non-empty) and credits
the span to the frame only when the popped id matches. -/
def stepAnalyze (s : AState) (e : Event) : AState :=
  match e.kind with
  | .O => ⟨s.frameTimes, updAdd s.frameSamples e.frame 1, (e.frame, e.ts) :: s.stack⟩
  | .C =>
    match s.stack with
    | [] => s
    | (g, t0) :: st =>
      if g = e.frame then
        ⟨updAdd s.frameTimes e.frame (e.ts - t0), s.frameSamples, st⟩
      else
        ⟨s.frameTimes, s.frameSamples, st⟩

/-- The event-reduction pass of `analyze_speedscope` from empty
aggregates and an empty stack. -/
def reduceEvents (events : List Event) : AState :=
  events.foldl stepAnalyze ⟨[], [], []⟩

/-- Sum of the values of an aggregate (`sum(frame_times.values())`). -/
def sumVals (l : List (ℕ × ℚ)) : ℚ :=
  (l.map Prod.snd).sum

/-- Sum of the timestamps of all Open events of a stream. -/
def openSum (es : List Event) : ℚ :=
  ((es.filter (fun e => e.kind == .O)).map Event.ts).sum

/-- Sum of the timestamps of all Close events of a stream. -/
def closeSum (es : List Event) : ℚ :=
  ((es.filter (fun e => e.kind == .C)).map Event.ts).sum

/-- Well-balanced event sequences: every Open is matched by a later Close
of the same frame and the matched spans are properly nested.  For such a
sequence the matched pairs partition the events, so the sum of
`close.ts - open.ts` over all matched pairs equals
`closeSum es - openSum es`. -/
inductive BalancedEv : List Event → Prop
  | nil : BalancedEv []
  | node (f : ℕ) (t t' : ℚ) (es es' : List Event) :
      BalancedEv es → BalancedEv es' →
      BalancedEv (⟨.O, f, t⟩ :: es ++ ⟨.C, f, t'⟩ :: es')

/-- Does a frame pass every eligibility test of `find_primary_root`:
known display name, namespace substring present, `'!'` present, and the
method name not skip-listed? -/
def qualifiesB (names : Names) (ns : String) (k : ℕ) : Bool :=
  match lookupA names k with
  | none => false
  | some name =>
    strIn ns name && strIn "!" name && !shouldSkip (getMethodName k names)

/-- The body of the scan loop of `find_primary_root`: `acc` is the pair
`(best_root, best_time)`, `p` the aggregate entry under scrutiny. -/
def fprStep (names : Names) (ns : String) (acc : Option ℕ × ℚ)
    (p : ℕ × Node) : Option ℕ × ℚ :=
  match lookupA names p.1 with
  | none => acc
  | some name =>
    if strIn ns name && strIn "!" name then
      if shouldSkip (getMethodName p.1 names) then acc
      else if acc.2 < p.2.time then (some p.1, p.2.time) else acc
    else acc

/-- `find_primary_root` of the call-tree variant: scan the aggregate in
insertion order keeping the eligible frame with the largest inclusive
time; `(none, 0)` is the no-root sentinel `(None, 0.0)`. -/
def findPrimaryRoot (tree : CallTree) (names : Names) (ns : String) :
    Option ℕ × ℚ :=
  tree.foldl (fprStep names ns) (none, 0)

/-- One output line of `print_tree`.  The formatted string
`prefix + f"{time:12.3f} ({pct:6.2f}%) {name}"` is modelled structurally:
`pfx` is the leading connector text and the remaining fields are the
numbers and the method name printed after it; `frame` records which frame
the line was emitted for. -/
structure Line where
  frame : ℕ
  pfx : String
  time : ℚ
  pct : ℚ
  name : String
deriving DecidableEq, Repr

/-- Re-prefix the first line of a child block
(`if first.startswith(next_prefix): first = first[len(next_prefix):]`
followed by `child_lines[0] = child_prefix + first`); on the structured
lines the check runs on the connector text, which is where the rendered
string of a child block starts. -/
def fixFirst (childPfx nextPfx : String) : List Line → List Line
  | [] => []
  | l :: ls =>
    ⟨l.frame,
      childPfx ++ (if listPre nextPfx.data l.pfx.data
        then (⟨l.pfx.data.drop nextPfx.data.length⟩ : String) else l.pfx),
      l.time, l.pct, l.name⟩ :: ls

/-- Stable descending insertion for child entries: an element is placed
before the first entry whose duration is not larger, so equal durations
keep their original relative order. -/
def insDesc (x : ℕ × ℚ) : ChildList → ChildList
  | [] => [x]
  | y :: ys => if y.2 ≤ x.2 then x :: y :: ys else y :: insDesc x ys

/-- `sorted(children.items(), key=lambda x: x[1], reverse=True)`:
Python's sort is stable, which a stable insertion sort reproduces
exactly. -/
def sortChildren (l : ChildList) : ChildList :=
  l.foldr insDesc []

/-- The `significant` list of `print_tree`: children sorted by descending
duration and filtered by `(time / total_time * 100) >= min_pct`.  Only
evaluated by `print_tree` when `total` is non-zero. -/
def significantChildren (total minPct : ℚ) (cs : ChildList) : ChildList :=
  (sortChildren cs).filter (fun c => minPct ≤ c.2 / total * 100)

/-- Sequence a list of fallible results, propagating the first failure
(a raised Python exception). -/
def seqOpt {α : Type} : List (Option α) → Option (List α)
  | [] => some []
  | o :: os => o.bind fun a => (seqOpt os).map (a :: ·)

/-- `print_tree` of the call-tree variant, with explicit fuel.  The fuel
is only a structural-recursion device: every level that recurses adds an
unvisited known frame to `visited`, so fuel above
`(namesKeys names \ visited).card` is never exhausted (see
`printTreeF_stable`).  `none` models the `ZeroDivisionError` raised by
the `significant` comprehension when `total_time` is zero and the
sorted child list is non-empty. -/
def printTreeF (tree : CallTree) (names : Names) (total minPct : ℚ) :
    ℕ → ℕ → ℕ → String → Finset ℕ → Option (List Line)
  | 0, _, _, _, _ => some []
  | fuel + 1, frameIdx, depth, pfx, visited =>
    if frameIdx ∈ visited ∨ frameIdx ∉ namesKeys names then some []
    else
      let visited' := insert frameIdx visited
      let methodName := getMethodName frameIdx names
      let node := (lookupA tree frameIdx).getD ⟨0, []⟩
      if shouldSkip methodName then
        (seqOpt (node.children.map
          (fun c => printTreeF tree names total minPct fuel c.1 depth pfx
            visited'))).map List.flatten
      else
        let pct := if 0 < total then node.time / total * 100 else 0
        if pct < minPct then some []
        else
          let selfLine : Line :=
            ⟨frameIdx, if depth = 0 then "" else pfx, node.time, pct,
              methodName⟩
          if node.children = [] then some [selfLine]
          else if total = 0 then none
          else
            let significant := significantChildren total minPct node.children
            let n := significant.length
            (seqOpt (significant.enum.map (fun ic =>
              let childPfx := pfx ++ (if ic.1 = n - 1 then "└─ " else "├─ ")
              let nextPfx := pfx ++ (if ic.1 = n - 1 then "   " else "│  ")
              (printTreeF tree names total minPct fuel ic.2.1 (depth + 1)
                nextPfx visited').map (fixFirst childPfx nextPfx)))).map
              (fun blocks => selfLine :: blocks.flatten)

/-- `print_tree` of the call-tree variant, run with enough fuel for the
ancestor-set guard to be the only thing that stops recursion. -/
def printTree (tree : CallTree) (names : Names) (total minPct : ℚ)
    (frameIdx depth : ℕ) (pfx : String) (visited : Finset ℕ) :
    Option (List Line) :=
  printTreeF tree names total minPct ((namesKeys names \ visited).card + 1)
    frameIdx depth pfx visited

/-- The stderr message `main` prints when `find_primary_root` returns the
sentinel. -/
def noRootMsg (ns : String) : String :=
  "Error: No methods found in namespace " ++ ns

/-- The stage of `main` (call-tree variant) after the aggregate is built:
on the no-root sentinel print a distinct stderr message and return exit
code 1; otherwise render the tree from the root with the root's inclusive
time as denominator (a raised exception would be caught by the
surrounding `try` and also exit 1).  Result: exit code and stderr
lines. -/
def mainFromTree (tree : CallTree) (names : Names) (ns : String)
    (minPct : ℚ) : ℕ × List String :=
  match findPrimaryRoot tree names ns with
  | (none, _) => (1, [noRootMsg ns])
  | (some rootIdx, rootTime) =>
    match printTree tree names rootTime minPct rootIdx 0 "" ∅ with
    | none => (1, ["Error:"])
    | some _ => (0, [])

/-- One ranked report line `f"{i:3d}. {val:12.6f} ({pct:6.2f}%) - {method}"`,
modelled structurally with the rank, value, percentage and method name it
carries. -/
structure RankLine where
  rank : ℕ
  value : ℚ
  pct : ℚ
  name : String
deriving DecidableEq, Repr

/-- The ranked-section loop of `format_report`: `i` is the 1-based
enumerate index, `count` the number of lines emitted so far.  An entry is
skipped when its percentage is below the threshold and its rank exceeds
10; after an emission the loop breaks once `count >= top_n`. -/
def sectionLoop (total minPct : ℚ) (topN : ℤ) :
    List (ℕ × ℚ × String) → ℕ → ℤ → List RankLine
  | [], _, _ => []
  | e :: rest, i, count =>
    if (if 0 < total then e.2.1 / total * 100 else 0) < minPct ∧ 10 < i then
      sectionLoop total minPct topN rest (i + 1) count
    else
      if topN ≤ count + 1 then
        [⟨i, e.2.1, if 0 < total then e.2.1 / total * 100 else 0, e.2.2⟩]
      else
        ⟨i, e.2.1, if 0 < total then e.2.1 / total * 100 else 0, e.2.2⟩ ::
          sectionLoop total minPct topN rest (i + 1) (count + 1)

/-- One ranked section of `format_report` (`enumerate(entries, 1)` with
`count = 0`). -/
def formatSection (entries : List (ℕ × ℚ × String)) (total minPct : ℚ)
    (topN : ℤ) : List RankLine :=
  sectionLoop total minPct topN entries 1 0

/-- The pure name-filter part of the eligibility tests of
`find_primary_root`: the namespace substring and the `'!'` delimiter are
both present in the frame's display name. -/
def matchesFilter (names : Names) (ns : String) (k : ℕ) : Bool :=
  match lookupA names k with
  | none => false
  | some name => strIn ns name && strIn "!" name

/-- The event stream of the specification scenario
`O(A,0), O(B,1), C(B,4), C(A,10)`, with frame ids A = 0 and B = 1. -/
def evScenario : List Event :=
  [⟨.O, 0, 0⟩, ⟨.O, 1, 1⟩, ⟨.C, 1, 4⟩, ⟨.C, 0, 10⟩]

/-- Frame table of the specification scenario. -/
def namesScenario : Names := [(0, "A"), (1, "B")]

/-- A tiny aggregate exercising the unguarded division of the child
filter: the root has a child and `total_time` will be zero. -/
def treeZeroTotal : CallTree := [(0, ⟨0, [(1, 0)]⟩), (1, ⟨0, []⟩)]

/-- Frame table for the zero-total example. -/
def namesZeroTotal : Names := [(0, "R"), (1, "S")]

/-- A diamond-shaped call-relationship graph: `0` calls `1` and `2`, and
both call `3`, so two distinct branches legitimately revisit frame 3. -/
def treeDiamond : CallTree :=
  [ (0, ⟨10, [(1, 4), (2, 4)]⟩), (1, ⟨4, [(3, 2)]⟩)
  , (2, ⟨4, [(3, 2)]⟩), (3, ⟨2, []⟩) ]

/-- Frame table of the diamond graph. -/
def namesDiamond : Names := [(0, "R"), (1, "X"), (2, "Y"), (3, "Z")]

/-- A graph whose root is a harness frame (`GlobalSetup`) with one child
of real work underneath it. -/
def treeSkip : CallTree := [(0, ⟨5, [(1, 5)]⟩), (1, ⟨5, []⟩)]

/-- Frame table of the harness-frame example. -/
def namesSkip : Names := [(0, "M!GlobalSetup"), (1, "M!work()")]

/-- An aggregate with one name-matching, non-skip-listed frame whose
accumulated time is zero. -/
def treeZeroTime : CallTree := [(0, ⟨0, []⟩)]

/-- An aggregate with one name-matching frame of positive accumulated
time. -/
def treePosTime : CallTree := [(0, ⟨7, []⟩)]

/-- Frame table whose single name matches the `"Atomic"` namespace
filter and is not skip-listed. -/
def namesAtomic : Names := [(0, "Atomic.Net!Meth()")]

/-- An aggregate/frame-table pair in which no frame qualifies for root
selection (the display name has no `'!'` delimiter). -/
def treeNoRoot : CallTree := [(0, ⟨5, []⟩)]

/-- Frame table for the no-qualifying-root example. -/
def namesNoRoot : Names := [(0, "NoBang")]

/-- One output line of `print_call_tree` (ranked-report variant):
`f"{indent}├─ {time_spent:10.3f} ({pct:5.2f}%) {method_name}"`, modelled
structurally; `depth` carries the indent width (`"  " * depth`) and
`frame` records which frame the line was emitted for. -/
structure CLine where
  frame : ℕ
  depth : ℕ
  time : ℚ
  pct : ℚ
  name : String
deriving DecidableEq, Repr

/-- Characters before the next `'!'`: composed with `dropToBang` this is
`name.split('!')[1]`, the segment between the first two delimiters. -/
def takeToBang : List Char → List Char
  | [] => []
  | c :: cs => if c = '!' then [] else c :: takeToBang cs

/-- `get_method_name` of the ranked-report variant: the filtered name
when present, else `name.split('!')[1]` when the name has a delimiter,
else the raw name, with a placeholder for unknown ids. -/
def getMethodNamePC (frameIdx : ℕ) (frameNames filteredFrames : Names) :
    String :=
  match lookupA filteredFrames frameIdx with
  | some m => m
  | none =>
    match lookupA frameNames frameIdx with
    | some name =>
      if strIn "!" name then ⟨takeToBang (dropToBang name.data)⟩ else name
    | none => "<unknown frame " ++ toString frameIdx ++ ">"

/-- The method-name truncation of `print_call_tree`:
`method_name[:97] + "..."` when longer than 100 characters. -/
def truncName (s : String) : String :=
  if 100 < s.data.length then (⟨s.data.take 97⟩ : String) ++ "..." else s

/-- `print_call_tree` of the ranked-report (depth-bounded) variant.
`budget` models `max_depth - depth`: the guard `depth >= max_depth` is
the `budget = 0` case (a non-positive `max_depth` behaves like 0), and
each level passes `budget - 1` alongside `depth + 1`.  The visited guard
checks only the parent at entry; a child's line is appended before the
recursive call, whose own entry guard then stops the descent
(`visited.copy()` gives each branch its own ancestor set). -/
def printCallTree (rels : List (ℕ × ChildList))
    (frameNames filteredFrames : Names) (total minPct : ℚ) :
    ℕ → ℕ → ℕ → Finset ℕ → List CLine
  | 0, _, _, _ => []
  | budget + 1, parentIdx, depth, visited =>
    if parentIdx ∈ visited then []
    else
      let children := (lookupA rels parentIdx).getD []
      if children = [] then []
      else
        ((sortChildren children).map (fun c =>
          if (if 0 < total then c.2 / total * 100 else 0) < minPct ∧ 0 < depth
          then []
          else
            ⟨c.1, depth, c.2, if 0 < total then c.2 / total * 100 else 0,
              truncName (getMethodNamePC c.1 frameNames filteredFrames)⟩ ::
              printCallTree rels frameNames filteredFrames total minPct
                budget c.1 (depth + 1) (insert parentIdx visited))).flatten

/-- A mutually recursive call-relationship graph 0 → 1 → 0. -/
def relsCyclic : List (ℕ × ChildList) := [(0, [(1, 2)]), (1, [(0, 2)])]

/-- Frame table of the cyclic graph. -/
def namesCyclic : Names := [(0, "P"), (1, "Q")]

lemma sumVals_updAdd (l : List (ℕ × ℚ)) (k : ℕ) (d : ℚ) :
    sumVals (updAdd l k d) = sumVals l + d := by
  induction l with
  | nil => simp [updAdd, sumVals]
  | cons p rest ih =>
    obtain ⟨k', v⟩ := p
    by_cases h : k' = k
    · simp only [updAdd, if_pos h, sumVals, List.map_cons, List.sum_cons]
      ring
    · simp only [updAdd, if_neg h, sumVals, List.map_cons, List.sum_cons] at *
      rw [ih]
      ring

lemma openSum_cons_O (f : ℕ) (t : ℚ) (es : List Event) :
    openSum (⟨.O, f, t⟩ :: es) = t + openSum es := by
  simp [openSum, List.filter_cons]

lemma openSum_cons_C (f : ℕ) (t : ℚ) (es : List Event) :
    openSum (⟨.C, f, t⟩ :: es) = openSum es := by
  simp [openSum, List.filter_cons]

lemma closeSum_cons_O (f : ℕ) (t : ℚ) (es : List Event) :
    closeSum (⟨.O, f, t⟩ :: es) = closeSum es := by
  simp [closeSum, List.filter_cons]

lemma closeSum_cons_C (f : ℕ) (t : ℚ) (es : List Event) :
    closeSum (⟨.C, f, t⟩ :: es) = t + closeSum es := by
  simp [closeSum, List.filter_cons]

lemma openSum_append (es es' : List Event) :
    openSum (es ++ es') = openSum es + openSum es' := by
  simp [openSum, List.filter_append]

lemma closeSum_append (es es' : List Event) :
    closeSum (es ++ es') = closeSum es + closeSum es' := by
  simp [closeSum, List.filter_append]

lemma foldA_balanced {es : List Event} (h : BalancedEv es) :
    ∀ s : AState, (es.foldl stepAnalyze s).stack = s.stack ∧
      sumVals (es.foldl stepAnalyze s).frameTimes
        = sumVals s.frameTimes + (closeSum es - openSum es) := by
  induction h with
  | nil =>
    intro s
    simp [closeSum, openSum]
  | node f t t' es es' hes hes' ih ih' =>
    intro s
    rw [List.foldl_append, List.foldl_cons, List.foldl_cons]
    have hs1 : stepAnalyze s ⟨.O, f, t⟩ =
        ⟨s.frameTimes, updAdd s.frameSamples f 1, (f, t) :: s.stack⟩ := rfl
    rw [hs1]
    obtain ⟨hstack, hsum⟩ :=
      ih ⟨s.frameTimes, updAdd s.frameSamples f 1, (f, t) :: s.stack⟩
    have hstep : stepAnalyze
        (es.foldl stepAnalyze ⟨s.frameTimes, updAdd s.frameSamples f 1,
          (f, t) :: s.stack⟩) ⟨.C, f, t'⟩ =
        ⟨updAdd (es.foldl stepAnalyze ⟨s.frameTimes,
            updAdd s.frameSamples f 1, (f, t) :: s.stack⟩).frameTimes f (t' - t),
          (es.foldl stepAnalyze ⟨s.frameTimes, updAdd s.frameSamples f 1,
            (f, t) :: s.stack⟩).frameSamples, s.stack⟩ := by
      simp [stepAnalyze, hstack]
    rw [hstep]
    obtain ⟨hstack', hsum'⟩ := ih' ⟨updAdd (es.foldl stepAnalyze ⟨s.frameTimes,
      updAdd s.frameSamples f 1, (f, t) :: s.stack⟩).frameTimes f (t' - t),
      (es.foldl stepAnalyze ⟨s.frameTimes, updAdd s.frameSamples f 1,
        (f, t) :: s.stack⟩).frameSamples, s.stack⟩
    refine ⟨by simpa using hstack', ?_⟩
    rw [hsum']
    simp only [AState.frameTimes] at *
    rw [sumVals_updAdd, hsum]
    rw [openSum_append, openSum_cons_O, openSum_cons_C,
      closeSum_append, closeSum_cons_O, closeSum_cons_C]
    ring

lemma mem_insDesc (x a : ℕ × ℚ) (l : ChildList) :
    a ∈ insDesc x l ↔ a = x ∨ a ∈ l := by
  induction l with
  | nil => simp [insDesc]
  | cons y ys ih =>
    by_cases h : y.2 ≤ x.2
    · simp [insDesc, h]
    · simp [insDesc, h, ih]
      tauto

lemma pairwise_insDesc (x : ℕ × ℚ) (l : ChildList)
    (h : List.Pairwise (fun a b => b.2 ≤ a.2) l) :
    List.Pairwise (fun a b => b.2 ≤ a.2) (insDesc x l) := by
  induction l with
  | nil => simp [insDesc]
  | cons y ys ih =>
    rcases List.pairwise_cons.mp h with ⟨hy, hys⟩
    by_cases hc : y.2 ≤ x.2
    · simp only [insDesc, if_pos hc]
      refine List.pairwise_cons.mpr ⟨?_, h⟩
      intro b hb
      rcases List.mem_cons.mp hb with rfl | hb'
      · exact hc
      · exact le_trans (hy b hb') hc
    · simp only [insDesc, if_neg hc]
      refine List.pairwise_cons.mpr ⟨?_, ih hys⟩
      intro b hb
      rcases (mem_insDesc x b ys).mp hb with rfl | hb'
      · exact le_of_not_le hc
      · exact hy b hb'

lemma pairwise_sortChildren (l : ChildList) :
    List.Pairwise (fun a b => b.2 ≤ a.2) (sortChildren l) := by
  induction l with
  | nil => simp [sortChildren]
  | cons a l ih =>
    simp only [sortChildren, List.foldr_cons] at *
    exact pairwise_insDesc a _ ih

lemma filter_insDesc (v : ℚ) (x : ℕ × ℚ) (l : ChildList) :
    (insDesc x l).filter (fun p => decide (p.2 = v)) =
      if x.2 = v then x :: l.filter (fun p => decide (p.2 = v))
      else l.filter (fun p => decide (p.2 = v)) := by
  induction l with
  | nil => by_cases h : x.2 = v <;> simp [insDesc, h]
  | cons y ys ih =>
    by_cases hc : y.2 ≤ x.2
    · simp only [insDesc, if_pos hc, List.filter_cons]
      by_cases hx : x.2 = v <;> by_cases hyv : y.2 = v <;>
        simp [hx, hyv]
    · simp only [insDesc, if_neg hc, List.filter_cons]
      rw [ih]
      by_cases hx : x.2 = v <;> by_cases hyv : y.2 = v
      · exact absurd (by rw [hyv, hx]) hc
      · simp [hx, hyv]
      · simp [hx, hyv]
      · simp [hx, hyv]

lemma filter_sortChildren (v : ℚ) (l : ChildList) :
    (sortChildren l).filter (fun p => decide (p.2 = v)) =
      l.filter (fun p => decide (p.2 = v)) := by
  induction l with
  | nil => rfl
  | cons a l ih =>
    simp only [sortChildren, List.foldr_cons] at *
    rw [filter_insDesc]
    by_cases h : a.2 = v <;> simp [h, List.filter_cons, ih]

lemma sectionLoop_rank_pct (total minPct : ℚ) (topN : ℤ) :
    ∀ (rest : List (ℕ × ℚ × String)) (i : ℕ) (count : ℤ),
      ∀ l ∈ sectionLoop total minPct topN rest i count,
        10 < l.rank → minPct ≤ l.pct := by
  intro rest
  induction rest with
  | nil => intro i count l hl; simp [sectionLoop] at hl
  | cons e rest ih =>
    intro i count l hl hrank
    by_cases hskip : (if 0 < total then e.2.1 / total * 100 else 0) < minPct ∧ 10 < i
    · rw [sectionLoop, if_pos hskip] at hl
      exact ih (i + 1) count l hl hrank
    · rw [sectionLoop, if_neg hskip] at hl
      by_cases hstop : topN ≤ count + 1
      · rw [if_pos hstop] at hl
        have hle : l = ⟨i, e.2.1, if 0 < total then e.2.1 / total * 100 else 0,
            e.2.2⟩ := List.mem_singleton.mp hl
        subst hle
        rcases not_and_or.mp hskip with h | h
        · exact not_lt.mp h
        · exact absurd hrank h
      · rw [if_neg hstop] at hl
        rcases List.mem_cons.mp hl with hle | hl'
        · subst hle
          rcases not_and_or.mp hskip with h | h
          · exact not_lt.mp h
          · exact absurd hrank h
        · exact ih (i + 1) (count + 1) l hl' hrank

lemma sectionLoop_length (total minPct : ℚ) (topN : ℤ) :
    ∀ (rest : List (ℕ × ℚ × String)) (i : ℕ) (count : ℤ),
      (sectionLoop total minPct topN rest i count).length
        ≤ max 1 (topN - count).toNat := by
  intro rest
  induction rest with
  | nil => intro i count; simp [sectionLoop]
  | cons e rest ih =>
    intro i count
    rw [sectionLoop]
    by_cases hskip : (if 0 < total then e.2.1 / total * 100 else 0) < minPct ∧ 10 < i
    · rw [if_pos hskip]
      exact ih (i + 1) count
    · rw [if_neg hskip]
      by_cases hstop : topN ≤ count + 1
      · rw [if_pos hstop]
        simp
      · rw [if_neg hstop]
        simp only [List.length_cons]
        have := ih (i + 1) (count + 1)
        omega

lemma sectionLoop_rank_emitted (total minPct : ℚ) (topN : ℤ) :
    ∀ (rest : List (ℕ × ℚ × String)) (i : ℕ) (count : ℤ) (r : ℕ),
      i ≤ r → r ≤ 10 → r + 1 ≤ i + rest.length →
      count + ((r : ℤ) - (i : ℤ)) + 1 ≤ topN →
      (sectionLoop total minPct topN rest i count).any (fun l => l.rank == r)
        = true := by
  intro rest
  induction rest with
  | nil =>
    intro i count r h1 h2 h3 h4
    simp only [List.length_nil] at h3
    omega
  | cons e rest ih =>
    intro i count r h1 h2 h3 h4
    rw [sectionLoop]
    have hnoskip :
        ¬ ((if 0 < total then e.2.1 / total * 100 else 0) < minPct ∧ 10 < i) := by
      rintro ⟨-, h10⟩
      omega
    rw [if_neg hnoskip]
    by_cases hir : i = r
    · subst hir
      by_cases hstop : topN ≤ count + 1
      · rw [if_pos hstop]
        simp
      · rw [if_neg hstop]
        simp
    · have hlt : i < r := lt_of_le_of_ne h1 hir
      have hstop : ¬ topN ≤ count + 1 := by omega
      rw [if_neg hstop]
      have hrec := ih (i + 1) (count + 1) r (by omega) h2
        (by simp only [List.length_cons] at h3; omega) (by push_cast; omega)
      simp only [List.any_cons, hrec, Bool.or_true]

lemma fprStep_no_qualify (names : Names) (ns : String) (acc : Option ℕ × ℚ)
    (p : ℕ × Node) (h : qualifiesB names ns p.1 = false) :
    fprStep names ns acc p = acc := by
  unfold fprStep
  unfold qualifiesB at h
  cases hlk : lookupA names p.1 with
  | none => simp [hlk]
  | some name =>
    rw [hlk] at h
    by_cases h1 : (strIn ns name && strIn "!" name) = true
    · have hsk : shouldSkip (getMethodName p.1 names) = true := by
        simp only [h1, Bool.true_and, Bool.not_eq_false'] at h
        exact h
      simp [hlk, h1, hsk]
    · simp [hlk, h1]

lemma foldl_fpr_no_qualify (names : Names) (ns : String) :
    ∀ (l : CallTree) (acc : Option ℕ × ℚ),
      (∀ p ∈ l, qualifiesB names ns p.1 = false) →
      l.foldl (fprStep names ns) acc = acc := by
  intro l
  induction l with
  | nil => intro acc h; rfl
  | cons p rest ih =>
    intro acc h
    rw [List.foldl_cons, fprStep_no_qualify names ns acc p (h p (List.mem_cons_self p rest))]
    exact ih acc (fun q hq => h q (List.mem_cons_of_mem p hq))

lemma foldl_fpr_nonpos (names : Names) (ns : String) :
    ∀ (l : CallTree),
      (∀ p ∈ l, matchesFilter names ns p.1 = true → p.2.time ≤ 0) →
      l.foldl (fprStep names ns) (none, 0) = (none, 0) := by
  intro l
  induction l with
  | nil => intro h; rfl
  | cons p rest ih =>
    intro h
    have hstep : fprStep names ns (none, 0) p = (none, 0) := by
      unfold fprStep
      cases hlk : lookupA names p.1 with
      | none => simp [hlk]
      | some name =>
        by_cases h1 : (strIn ns name && strIn "!" name) = true
        · have hm : matchesFilter names ns p.1 = true := by
            unfold matchesFilter
            rw [hlk]
            exact h1
          have ht : p.2.time ≤ 0 := h p (List.mem_cons_self p rest) hm
          by_cases hsk : shouldSkip (getMethodName p.1 names) = true
          · simp [hlk, h1, hsk]
          · have : ¬ (((none : Option ℕ), (0 : ℚ)).2 < p.2.time) := by
              simp only [not_lt]
              exact ht
            simp [hlk, h1, hsk, this]
        · simp [hlk, h1]
    rw [List.foldl_cons, hstep]
    exact ih (fun q hq hm => h q (List.mem_cons_of_mem p hq) hm)

lemma fprStep_inv (names : Names) (ns : String) (acc : Option ℕ × ℚ)
    (p : ℕ × Node)
    (h : acc = (none, 0) ∨ ∃ r, acc.1 = some r ∧ 0 < acc.2) :
    fprStep names ns acc p = (none, 0) ∨
      ∃ r, (fprStep names ns acc p).1 = some r ∧ 0 < (fprStep names ns acc p).2 := by
  unfold fprStep
  cases hlk : lookupA names p.1 with
  | none => simpa [hlk] using h
  | some name =>
    by_cases h1 : (strIn ns name && strIn "!" name) = true
    · by_cases hsk : shouldSkip (getMethodName p.1 names) = true
      · simpa [hlk, h1, hsk] using h
      · by_cases hup : acc.2 < p.2.time
        · have hpos : 0 < p.2.time := by
            rcases h with rfl | ⟨r, hr, hpos⟩
            · simpa using hup
            · exact lt_trans hpos hup
          right
          refine ⟨p.1, ?_, ?_⟩ <;> simp [hlk, h1, hsk, hup, hpos]
        · simpa [hlk, h1, hsk, hup] using h
    · simpa [hlk, h1] using h

lemma foldl_fpr_inv (names : Names) (ns : String) :
    ∀ (l : CallTree) (acc : Option ℕ × ℚ),
      (acc = (none, 0) ∨ ∃ r, acc.1 = some r ∧ 0 < acc.2) →
      (l.foldl (fprStep names ns) acc = (none, 0) ∨
        ∃ r, (l.foldl (fprStep names ns) acc).1 = some r ∧
          0 < (l.foldl (fprStep names ns) acc).2) := by
  intro l
  induction l with
  | nil => intro acc h; exact h
  | cons p rest ih =>
    intro acc h
    rw [List.foldl_cons]
    exact ih (fprStep names ns acc p) (fprStep_inv names ns acc p h)

lemma card_sdiff_insert (s t : Finset ℕ) (a : ℕ) (ha : a ∈ s) (hat : a ∉ t) :
    (s \ insert a t).card + 1 = (s \ t).card := by
  have hmem : a ∈ s \ t := Finset.mem_sdiff.mpr ⟨ha, hat⟩
  have heq : s \ insert a t = (s \ t).erase a := by
    ext x
    simp only [Finset.mem_sdiff, Finset.mem_insert, Finset.mem_erase]
    tauto
  rw [heq, Finset.card_erase_of_mem hmem]
  have hpos : 0 < (s \ t).card := Finset.card_pos.mpr ⟨a, hmem⟩
  omega

lemma seqOpt_mem {α : Type} :
    ∀ (os : List (Option α)) (ls : List α), seqOpt os = some ls →
      ∀ x ∈ ls, ∃ o ∈ os, o = some x := by
  intro os
  induction os with
  | nil =>
    intro ls h x hx
    simp only [seqOpt, Option.some_inj] at h
    subst h
    simp at hx
  | cons o os ih =>
    intro ls h x hx
    cases o with
    | none => simp [seqOpt] at h
    | some a =>
      cases hos : seqOpt os with
      | none => simp [seqOpt, hos] at h
      | some ls' =>
        simp only [seqOpt, hos, Option.some_bind, Option.map_some',
          Option.some_inj] at h
        subst h
        rcases List.mem_cons.mp hx with rfl | hx'
        · exact ⟨some x, List.mem_cons_self _ _, rfl⟩
        · obtain ⟨o', ho', hoeq⟩ := ih ls' hos x hx'
          exact ⟨o', List.mem_cons_of_mem _ ho', hoeq⟩

lemma mem_fixFirst_frame {cp np : String} {ls : List Line} {l : Line}
    (h : l ∈ fixFirst cp np ls) : ∃ l' ∈ ls, l'.frame = l.frame := by
  cases ls with
  | nil => simp [fixFirst] at h
  | cons a as =>
    simp only [fixFirst, List.mem_cons] at h
    rcases h with rfl | h
    · exact ⟨a, List.mem_cons_self _ _, rfl⟩
    · exact ⟨l, List.mem_cons_of_mem _ h, rfl⟩

lemma seqOpt_flatten_pred {α : Type} (P : α → Prop)
    (os : List (Option (List α)))
    (h : ∀ o ∈ os, ∀ x ∈ o.getD [], P x) :
    ∀ x ∈ ((seqOpt os).map List.flatten).getD [], P x := by
  intro x hx
  cases hseq : seqOpt os with
  | none => rw [hseq] at hx; simp at hx
  | some ls =>
    rw [hseq] at hx
    simp only [Option.map_some', Option.getD_some] at hx
    rcases List.mem_flatten.mp hx with ⟨b, hb, hxb⟩
    obtain ⟨o, ho, hoeq⟩ := seqOpt_mem os ls hseq b hb
    exact h o ho x (by rw [hoeq]; simpa using hxb)

lemma seqOpt_cons_flatten_pred {α : Type} (P : α → Prop) (a : α)
    (os : List (Option (List α))) (ha : P a)
    (h : ∀ o ∈ os, ∀ x ∈ o.getD [], P x) :
    ∀ x ∈ ((seqOpt os).map (fun bs => a :: bs.flatten)).getD [], P x := by
  intro x hx
  cases hseq : seqOpt os with
  | none => rw [hseq] at hx; simp at hx
  | some ls =>
    rw [hseq] at hx
    simp only [Option.map_some', Option.getD_some] at hx
    rcases List.mem_cons.mp hx with rfl | hx'
    · exact ha
    · rcases List.mem_flatten.mp hx' with ⟨b, hb, hxb⟩
      obtain ⟨o, ho, hoeq⟩ := seqOpt_mem os ls hseq b hb
      exact h o ho x (by rw [hoeq]; simpa using hxb)

lemma mem_getD_map_fixFirst {cp np : String} {po : Option (List Line)}
    {x : Line} (hx : x ∈ (po.map (fixFirst cp np)).getD []) :
    ∃ l' ∈ po.getD [], l'.frame = x.frame := by
  cases po with
  | none => simp at hx
  | some b =>
    simp only [Option.map_some', Option.getD_some] at hx
    obtain ⟨l', hl', he⟩ := mem_fixFirst_frame hx
    exact ⟨l', by simpa using hl', he⟩

lemma printTreeF_not_visited (tree : CallTree) (names : Names)
    (total minPct : ℚ) :
    ∀ (fuel frameIdx depth : ℕ) (pfx : String) (visited : Finset ℕ),
      ∀ l ∈ (printTreeF tree names total minPct fuel frameIdx depth pfx
        visited).getD [], l.frame ∉ visited := by
  intro fuel
  induction fuel with
  | zero =>
    intro frameIdx depth pfx visited l hl
    simp [printTreeF] at hl
  | succ fuel ih =>
    intro f d p v l hl
    simp only [printTreeF] at hl
    by_cases hg : f ∈ v ∨ f ∉ namesKeys names
    · rw [if_pos hg] at hl
      simp at hl
    · rw [if_neg hg] at hl
      have hfv : f ∉ v := fun hin => hg (Or.inl hin)
      by_cases hs : shouldSkip (getMethodName f names) = true
      · rw [if_pos hs] at hl
        refine seqOpt_flatten_pred (fun x => x.frame ∉ v) _ ?_ l hl
        intro o ho x hx
        rcases List.mem_map.mp ho with ⟨c, hc, rfl⟩
        have h2 := ih c.1 d p (insert f v) x hx
        exact fun hin => h2 (Finset.mem_insert_of_mem hin)
      · rw [if_neg hs] at hl
        by_cases hp : (if 0 < total then
            ((lookupA tree f).getD ⟨0, []⟩).time / total * 100 else 0) < minPct
        · rw [if_pos hp] at hl
          simp at hl
        · rw [if_neg hp] at hl
          by_cases hc0 : ((lookupA tree f).getD ⟨0, []⟩).children = []
          · rw [if_pos hc0] at hl
            simp only [Option.getD_some, List.mem_singleton] at hl
            subst hl
            exact hfv
          · rw [if_neg hc0] at hl
            by_cases ht0 : total = 0
            · rw [if_pos ht0] at hl
              simp at hl
            · rw [if_neg ht0] at hl
              refine seqOpt_cons_flatten_pred (fun x => x.frame ∉ v) _ _ hfv
                ?_ l hl
              intro o ho x hx
              rcases List.mem_map.mp ho with ⟨ic, hic, rfl⟩
              obtain ⟨l', hl', he⟩ := mem_getD_map_fixFirst hx
              have h2 := ih ic.2.1 (d + 1) _ (insert f v) l' hl'
              rw [he] at h2
              exact fun hin => h2 (Finset.mem_insert_of_mem hin)

lemma printTreeF_stable (tree : CallTree) (names : Names)
    (total minPct : ℚ) :
    ∀ (fuel fuel' frameIdx depth : ℕ) (pfx : String) (visited : Finset ℕ),
      (namesKeys names \ visited).card < fuel →
      (namesKeys names \ visited).card < fuel' →
      printTreeF tree names total minPct fuel frameIdx depth pfx visited
        = printTreeF tree names total minPct fuel' frameIdx depth pfx
            visited := by
  intro fuel
  induction fuel with
  | zero =>
    intro fuel' f d p v h h'
    exact absurd h (Nat.not_lt_zero _)
  | succ fuel ih =>
    intro fuel' f d p v h h'
    cases fuel' with
    | zero => exact absurd h' (Nat.not_lt_zero _)
    | succ fuel' =>
      simp only [printTreeF]
      by_cases hg : f ∈ v ∨ f ∉ namesKeys names
      · rw [if_pos hg, if_pos hg]
      · rw [if_neg hg, if_neg hg]
        have hfv : f ∉ v := fun hin => hg (Or.inl hin)
        have hfk : f ∈ namesKeys names := by
          by_contra hk
          exact hg (Or.inr hk)
        have hcard : (namesKeys names \ insert f v).card + 1
            = (namesKeys names \ v).card :=
          card_sdiff_insert _ _ _ hfk hfv
        have hlt : (namesKeys names \ insert f v).card < fuel := by omega
        have hlt' : (namesKeys names \ insert f v).card < fuel' := by omega
        refine if_congr Iff.rfl ?_ ?_
        · exact congrArg _ (congrArg _ (List.map_congr_left
            (fun c hc => ih fuel' c.1 d p (insert f v) hlt hlt')))
        · refine if_congr Iff.rfl rfl ?_
          refine if_congr Iff.rfl rfl ?_
          refine if_congr Iff.rfl rfl ?_
          exact congrArg _ (congrArg _ (List.map_congr_left
            (fun ic hic => congrArg _
              (ih fuel' ic.2.1 (d + 1) _ (insert f v) hlt hlt'))))

lemma lookupA_nil {α : Type} (k : ℕ) :
    lookupA ([] : List (ℕ × α)) k = none := rfl

lemma lookupA_cons {α : Type} (k' : ℕ) (v : α) (rest : List (ℕ × α))
    (k : ℕ) :
    lookupA ((k', v) :: rest) k = if k' = k then some v else lookupA rest k := by
  by_cases h : k' = k
  · simp [lookupA, List.find?_cons_of_pos, h]
  · rw [lookupA, List.find?_cons_of_neg]
    · simp [lookupA, h]
    · simp [h]

lemma card_keys_le (names : Names) (v : Finset ℕ) :
    (namesKeys names \ v).card ≤ names.length :=
  le_trans (Finset.card_le_card Finset.sdiff_subset)
    (le_trans (List.toFinset_card_le _) (le_of_eq (List.length_map _ _)))

lemma printTree_eq_fuel (tree : CallTree) (names : Names) (total minPct : ℚ)
    (f d : ℕ) (p : String) (v : Finset ℕ) :
    printTree tree names total minPct f d p v
      = printTreeF tree names total minPct (names.length + 1) f d p v := by
  rw [printTree]
  exact printTreeF_stable tree names total minPct _ (names.length + 1) f d p
    v (Nat.lt_succ_self _) (Nat.lt_succ_of_le (card_keys_le names v))

/-- C1: for the event stream `O(A,0), O(B,1), C(B,4), C(A,10)` the reducer
accumulates duration 10 for frame A (id 0), 3 for frame B (id 1) and the
edge A→B with 3; rendering from root A with `total_time = 10` and
threshold 0% yields exactly two lines, A's first and B's beneath it as
A's only, last child (terminal connector) with percentage 30%. -/
theorem scenario_reduce_and_render :
    buildCallTree evScenario = [(1, ⟨3, []⟩), (0, ⟨10, [(1, 3)]⟩)]
    ∧ printTree (buildCallTree evScenario) namesScenario 10 0 0 0 "" ∅
      = some [⟨0, "", 10, 100, "A"⟩, ⟨1, "└─ ", 3, 30, "B"⟩] := by
  constructor
  · norm_num [buildCallTree, evScenario, List.foldl, stepBCT, updTime,
      updEdge, addChild]
  · have hred : buildCallTree evScenario
        = [(1, ⟨3, []⟩), (0, ⟨10, [(1, 3)]⟩)] := by
      norm_num [buildCallTree, evScenario, List.foldl, stepBCT, updTime,
        updEdge, addChild]
    rw [hred, printTree_eq_fuel]
    norm_num +decide [printTreeF, getMethodName, strIn, listSub, listPre,
      shouldSkip, skipPatterns, dropToBang, namesKeys, significantChildren,
      sortChildren, insDesc, seqOpt, fixFirst, lookupA_nil, lookupA_cons,
      List.enum, List.enumFrom, namesScenario]

/-- C2: evaluation of the renderer at `total_time = 0`, threshold 0 and a
root with one child: the child filter divides by `total_time` without the
zero guard used for the node percentage, so the call raises
(`none` models the `ZeroDivisionError`) instead of computing percentage
0 as the specification requires. -/
theorem renderer_zero_total_div_eval :
    printTree treeZeroTotal namesZeroTotal 0 0 0 0 "" ∅ = none := by
  decide

/-- C3 counterexample: on the mutually recursive graph 0 → 1 → 0 the
depth-bounded renderer `print_call_tree`, walked from root 0 with depth
bound 5 and threshold 0, emits a line for frame 0 (at depth 1) while
frame 0 is the root of the active branch: its visited guard runs only on
descent, after the child's line has already been appended, so the claim
that no line is ever emitted for a frame on the active ancestor path is
false for this cited renderer. -/
theorem print_call_tree_on_path_counterexample :
    printCallTree relsCyclic namesCyclic [] 10 0 5 0 0 ∅
      = [⟨1, 0, 2, 20, "Q"⟩, ⟨0, 1, 2, 20, "P"⟩] := by
  norm_num +decide [printCallTree, sortChildren, insDesc, lookupA_nil,
    lookupA_cons, getMethodNamePC, truncName, strIn, listSub, listPre,
    relsCyclic, namesCyclic, takeToBang, dropToBang]

set_option maxHeartbeats 2000000 in
/-- C3 (amended): neither renderer ever descends into a frame already on
the active ancestor path, so recursion terminates on self- and mutually
recursive graphs, and the guard raises no error.  For the depth-unbounded
`print_tree`: a frame on the active path yields no output and no error;
every emitted line's frame id is outside the inherited ancestor set; the
result is fuel-independent above the guard bound (the guard, not the
recursion budget, terminates the walk); and on the diamond graph distinct
branches still revisit frame 3 twice.  For the depth-bounded
`print_call_tree`: a call on a frame already on the active path returns
no lines and no error (its descent guard — though a single child line for
an on-path frame may have been emitted by its parent, see the
counterexample), and an exhausted depth budget also stops the walk with
no lines. -/
theorem renderer_cycle_guard (tree : CallTree) (names : Names)
    (total minPct : ℚ) (f depth : ℕ) (pfx : String) (visited : Finset ℕ) :
    (f ∈ visited →
      printTree tree names total minPct f depth pfx visited = some [])
    ∧ (∀ l ∈ (printTree tree names total minPct f depth pfx visited).getD [],
        l.frame ∉ visited)
    ∧ (∀ fuel, (namesKeys names \ visited).card < fuel →
        printTreeF tree names total minPct fuel f depth pfx visited
          = printTree tree names total minPct f depth pfx visited)
    ∧ ((printTree treeDiamond namesDiamond 10 0 0 0 "" ∅).getD []).countP
        (fun l => l.frame == 3) = 2
    ∧ (∀ (rels : List (ℕ × ChildList)) (fn ff : Names) (budget p d : ℕ)
        (v : Finset ℕ), p ∈ v →
        printCallTree rels fn ff total minPct budget p d v = [])
    ∧ (∀ (rels : List (ℕ × ChildList)) (fn ff : Names) (p d : ℕ)
        (v : Finset ℕ),
        printCallTree rels fn ff total minPct 0 p d v = []) := by
  refine ⟨?_, ?_, ?_, ?_, ?_, ?_⟩
  · intro hf
    simp only [printTree, printTreeF]
    rw [if_pos (Or.inl hf)]
  · intro l hl
    exact printTreeF_not_visited tree names total minPct _ f depth pfx
      visited l hl
  · intro fuel hf
    exact printTreeF_stable tree names total minPct fuel _ f depth pfx
      visited hf (Nat.lt_succ_self _)
  · rw [printTree_eq_fuel]
    norm_num +decide [printTreeF, getMethodName, strIn, listSub, listPre,
      shouldSkip, skipPatterns, dropToBang, namesKeys, significantChildren,
      sortChildren, insDesc, seqOpt, fixFirst, lookupA_nil, lookupA_cons,
      List.enum, List.enumFrom, treeDiamond, namesDiamond, List.countP]
  · intro rels fn ff budget p d v hp
    cases budget with
    | zero => simp [printCallTree]
    | succ b => simp [printCallTree, hp]
  · intro rels fn ff p d v
    simp [printCallTree]

theorem renderer_cycle_guard_witness :
    printTree treeDiamond namesDiamond 10 0 0 0 "" (insert 0 ∅) = some []
    ∧ printTreeF treeDiamond namesDiamond 10 0 5 0 0 "" ∅
      = printTree treeDiamond namesDiamond 10 0 0 0 "" ∅
    ∧ printCallTree relsCyclic namesCyclic [] 10 0 5 0 0 (insert 0 ∅)
      = [] :=
  ⟨(renderer_cycle_guard treeDiamond namesDiamond 10 0 0 0 ""
      (insert 0 ∅)).1 (by decide),
   (renderer_cycle_guard treeDiamond namesDiamond 10 0 0 0 "" ∅).2.2.1 5
      (by decide),
   (renderer_cycle_guard treeDiamond namesDiamond 10 0 0 0 ""
      ∅).2.2.2.2.1 relsCyclic namesCyclic [] 5 0 0 (insert 0 ∅)
      (by decide)⟩

/-- C4: for every well-balanced event sequence, the sum over all frame
ids of the accumulated exclusive-time aggregates equals the sum over all
matched Open/Close pairs of `close.ts - open.ts` (which, the pairs
partitioning the events, is `closeSum es - openSum es`). -/
theorem reducer_balanced_sum (es : List Event) (h : BalancedEv es) :
    sumVals (reduceEvents es).frameTimes = closeSum es - openSum es := by
  have := (foldA_balanced h ⟨[], [], []⟩).2
  simpa [reduceEvents, sumVals] using this

theorem reducer_balanced_sum_witness :
    BalancedEv evScenario ∧
      sumVals (reduceEvents evScenario).frameTimes
        = closeSum evScenario - openSum evScenario := by
  have hinner : BalancedEv [⟨.O, 1, 1⟩, ⟨.C, 1, 4⟩] := by
    have h0 := BalancedEv.node 1 1 4 [] [] .nil .nil
    simpa using h0
  have hb : BalancedEv evScenario := by
    have h1 := BalancedEv.node 0 0 10 [⟨.O, 1, 1⟩, ⟨.C, 1, 4⟩] [] hinner .nil
    simpa [evScenario] using h1
  exact ⟨hb, reducer_balanced_sum evScenario hb⟩

/-- C5: a Close event whose frame differs from the popped stack top is
discarded without raising: the aggregate (times and edges alike) is left
untouched and the stack is left one element shorter, with the fold
continuing on the next event. -/
theorem mismatched_close_discarded (tree : CallTree) (g : ℕ) (t0 : ℚ)
    (st : List (ℕ × ℚ)) (f : ℕ) (ts : ℚ) (h : g ≠ f) :
    stepBCT (tree, (g, t0) :: st) ⟨.C, f, ts⟩ = (tree, st) := by
  simp [stepBCT, h]

theorem mismatched_close_discarded_witness :
    (2 : ℕ) ≠ 3 ∧ stepBCT ([], [(2, 0)]) ⟨.C, 3, 5⟩ = ([], []) :=
  ⟨by decide, mismatched_close_discarded [] 2 0 [] 3 5 (by decide)⟩

/-- C6: when no aggregate entry passes all the root-selector tests, the
selector returns the `(None, 0.0)` sentinel rather than raising, and
`main` reports it: the distinct no-root stderr message and exit code
1. -/
theorem no_root_sentinel_reported (tree : CallTree) (names : Names)
    (ns : String) (minPct : ℚ)
    (h : ∀ p ∈ tree, qualifiesB names ns p.1 = false) :
    findPrimaryRoot tree names ns = (none, 0)
    ∧ mainFromTree tree names ns minPct = (1, [noRootMsg ns]) := by
  have h1 : findPrimaryRoot tree names ns = (none, 0) :=
    foldl_fpr_no_qualify names ns tree (none, 0) h
  exact ⟨h1, by simp [mainFromTree, h1]⟩

theorem no_root_sentinel_reported_witness :
    findPrimaryRoot treeNoRoot namesNoRoot "Atomic" = (none, 0)
    ∧ mainFromTree treeNoRoot namesNoRoot "Atomic" 0
      = (1, [noRootMsg "Atomic"]) :=
  no_root_sentinel_reported treeNoRoot namesNoRoot "Atomic" 0 (by decide)

/-- C7: the child list the renderer iterates over is sorted by
non-increasing accumulated duration, and the sort is stable: for every
duration value, the entries carrying it appear in their original
insertion order. -/
theorem children_sorted_stable (total minPct : ℚ) (cs : ChildList) :
    List.Pairwise (fun a b => b.2 ≤ a.2)
      (significantChildren total minPct cs)
    ∧ ∀ v : ℚ, (sortChildren cs).filter (fun p => decide (p.2 = v))
        = cs.filter (fun p => decide (p.2 = v)) := by
  constructor
  · simp only [significantChildren]
    exact (pairwise_sortChildren cs).sublist (List.filter_sublist _)
  · intro v
    exact filter_sortChildren v cs

/-- C8 counterexample: with a top-N cutoff of 1 and threshold 0, the
second entry (rank 2 ≤ 10) is not emitted, contradicting the claim that
an entry at rank 1 through 10 is always emitted for every top-N
cutoff. -/
theorem section_top10_counterexample :
    formatSection [(0, 5, "a"), (1, 5, "b")] 10 0 1
      = [⟨1, 5, 50, "a"⟩] := by
  norm_num [formatSection, sectionLoop]

/-- C8 (amended): an entry at rank greater than 10 is emitted only if its
percentage reaches the threshold; at most `max 1 top_n` entries are
emitted (the cutoff check runs after each emission, so one entry appears
even for cutoffs below 1); and an entry at rank 1 through 10 whose rank
does not exceed the cutoff is always emitted regardless of its
percentage. -/
theorem section_emission_rules (entries : List (ℕ × ℚ × String))
    (total minPct : ℚ) (topN : ℤ) :
    (∀ l ∈ formatSection entries total minPct topN,
        10 < l.rank → minPct ≤ l.pct)
    ∧ (formatSection entries total minPct topN).length ≤ max 1 topN.toNat
    ∧ (∀ r : ℕ, 1 ≤ r → r ≤ 10 → (r : ℤ) ≤ topN → r ≤ entries.length →
        (formatSection entries total minPct topN).any
          (fun l => l.rank == r) = true) := by
  refine ⟨?_, ?_, ?_⟩
  · exact fun l hl => sectionLoop_rank_pct total minPct topN entries 1 0 l hl
  · have h0 := sectionLoop_length total minPct topN entries 1 0
    simpa [formatSection] using h0
  · intro r h1 h10 htop hlen
    apply sectionLoop_rank_emitted total minPct topN entries 1 0 r h1 h10
    · omega
    · push_cast
      omega

theorem section_emission_rules_witness :
    (formatSection [(0, 5, "a"), (1, 2, "b")] 10 100 5).any
      (fun l => l.rank == 2) = true :=
  (section_emission_rules [(0, 5, "a"), (1, 2, "b")] 10 100 5).2.2 2
    (by decide) (by decide) (by decide) (by decide)

/-- C9: a frame whose method name matches a skip-pattern emits no line of
its own but its children are each rendered at the same depth with the
same prefix the skipped frame would have used, and no line for the
skipped frame id appears in the output. -/
theorem skip_flatten_semantics (tree : CallTree) (names : Names)
    (total minPct : ℚ) (f depth : ℕ) (pfx : String) (visited : Finset ℕ)
    (hfv : f ∉ visited) (hfk : f ∈ namesKeys names)
    (hs : shouldSkip (getMethodName f names) = true) :
    printTree tree names total minPct f depth pfx visited =
      (seqOpt ((((lookupA tree f).getD ⟨0, []⟩).children).map
        (fun c => printTree tree names total minPct c.1 depth pfx
          (insert f visited)))).map List.flatten
    ∧ ∀ l ∈ (printTree tree names total minPct f depth pfx visited).getD [],
        l.frame ≠ f := by
  have hg : ¬ (f ∈ visited ∨ f ∉ namesKeys names) := by
    rintro (h | h)
    · exact hfv h
    · exact h hfk
  have hcard : (namesKeys names \ insert f visited).card + 1
      = (namesKeys names \ visited).card :=
    card_sdiff_insert _ _ _ hfk hfv
  have heq : printTree tree names total minPct f depth pfx visited =
      (seqOpt ((((lookupA tree f).getD ⟨0, []⟩).children).map
        (fun c => printTree tree names total minPct c.1 depth pfx
          (insert f visited)))).map List.flatten := by
    simp only [printTree]
    simp only [hcard]
    simp only [printTreeF]
    rw [if_neg hg, if_pos hs]
  refine ⟨heq, ?_⟩
  intro l hl
  rw [heq] at hl
  refine seqOpt_flatten_pred (fun x => x.frame ≠ f) _ ?_ l hl
  intro o ho x hx
  rcases List.mem_map.mp ho with ⟨c, hc, rfl⟩
  have h2 := printTreeF_not_visited tree names total minPct
    ((namesKeys names \ insert f visited).card + 1) c.1 depth pfx
    (insert f visited) x hx
  exact fun heq2 => h2 (by rw [heq2]; exact Finset.mem_insert_self f visited)

theorem skip_flatten_semantics_witness :
    printTree treeSkip namesSkip 10 0 0 0 "" ∅ =
      (seqOpt ((((lookupA treeSkip 0).getD ⟨0, []⟩).children).map
        (fun c => printTree treeSkip namesSkip 10 0 c.1 0 ""
          (insert 0 ∅)))).map List.flatten :=
  (skip_flatten_semantics treeSkip namesSkip 10 0 0 0 "" ∅ (by decide)
    (by decide) (by decide)).1

/-- C10: the tree-variant root selector only ever returns a root with
strictly positive accumulated inclusive time: if every entry matching the
namespace filter has time at most 0 the sentinel is returned even though
frames match the filter, and any returned root carries a positive best
time. -/
theorem root_positive_time_only (tree : CallTree) (names : Names)
    (ns : String) :
    ((∀ p ∈ tree, matchesFilter names ns p.1 = true → p.2.time ≤ 0) →
      findPrimaryRoot tree names ns = (none, 0))
    ∧ (∀ r t, findPrimaryRoot tree names ns = (some r, t) → 0 < t) := by
  constructor
  · intro h
    exact foldl_fpr_nonpos names ns tree h
  · intro r t heq
    unfold findPrimaryRoot at heq
    rcases foldl_fpr_inv names ns tree (none, 0) (Or.inl rfl) with
      h0 | ⟨r', hr', hpos⟩
    · rw [h0] at heq
      simp at heq
    · rw [heq] at hpos
      exact hpos

theorem root_positive_time_only_witness :
    findPrimaryRoot treeZeroTime namesAtomic "Atomic" = (none, 0)
    ∧ (0 : ℚ) < 7 :=
  ⟨(root_positive_time_only treeZeroTime namesAtomic "Atomic").1 (by decide),
   (root_positive_time_only treePosTime namesAtomic "Atomic").2 0 7
      (by decide)⟩
